import Mathlib

/-!
# Verification of the micro-kernel fusion and block-tiled execution engine

Shallow embedding of the engine in `src/lib/cgpt/lib/benchmarks.cc`:
view sets (`micro_kernel_arg_t`), the example kernel action `mk_su3_mul`,
and the block-tiled executor `eval_micro_kernels`.

Field contents are modelled as a store `Nat → Nat → M` mapping
(field id, outer-site index) to a vector-object value of type `M`
(any type with a multiplication).  Kernel actions are state
transformers on the store; the executor threads the store through the
schedule exactly as the C++ double loop does.  C++ behaviour that is
undefined (reading `kernels[0]` of an empty vector, dividing by a zero
`block_size`) is modelled by an `Option` result.
-/

namespace Cgpt

/-- Access modes used when opening a view (`ViewMode` in the source;
the modes that appear in `benchmarks.cc` plus read-write). -/
inductive ViewMode where
  | AcceleratorRead
  | AcceleratorWriteDiscard
  | AcceleratorReadWrite
  deriving DecidableEq, Repr, Inhabited

/-- An external field (`Lattice<T>` in the source), identified by an id and
its outer-site count `l.Grid()->oSites()`. -/
structure Field where
  id : Nat
  oSites : Nat
  deriving DecidableEq, Repr, Inhabited

/-- A scoped view handle: one acquired access window onto one field
(`l.View(mode)` in the source). -/
structure ViewHandle where
  fieldId : Nat
  mode : ViewMode
  deriving DecidableEq, Repr, Inhabited

/-- `ViewContainer<View>` from the source: owns one view handle; its
destructor calls `v.ViewClose()` exactly once. -/
structure ViewContainer where
  v : ViewHandle
  deriving DecidableEq, Repr, Inhabited

/-- Externally visible events of the view lifecycle; `close h` is one
`ViewClose()` call on handle `h`. -/
inductive ViewEvent where
  | close (h : ViewHandle)
  deriving DecidableEq, Repr

/-- Destroying a `ViewContainer` (its virtual destructor) closes its view
exactly once. -/
def ViewContainer.destroy (c : ViewContainer) : List ViewEvent :=
  [ViewEvent.close c.v]

/-- `micro_kernel_arg_t`: an ordered list of owned view containers plus the
shared iteration extent `o_sites`. -/
structure micro_kernel_arg_t where
  views : List ViewContainer
  o_sites : Nat
  deriving DecidableEq, Repr, Inhabited

/-- `micro_kernel_arg_t::add(l, mode)`: on the first call records
`o_sites = l.Grid()->oSites()`; on later calls `ASSERT(o_sites == _o_sites)`
(a fatal abort, modelled as `none`), then opens a view of `l` and appends
the owning container. -/
def micro_kernel_arg_t.add (a : micro_kernel_arg_t) (l : Field)
    (mode : ViewMode) : Option micro_kernel_arg_t :=
  let os := l.oSites
  if a.views.length = 0 then
    some { views := a.views ++ [⟨⟨l.id, mode⟩⟩], o_sites := os }
  else if a.o_sites = os then
    some { views := a.views ++ [⟨⟨l.id, mode⟩⟩], o_sites := a.o_sites }
  else
    none

/-- `micro_kernel_arg_t::release()`: `for (auto x : views) delete x;` —
each delete runs one container destructor.  The result is the list of
close events, in order. -/
def micro_kernel_arg_t.release (a : micro_kernel_arg_t) : List ViewEvent :=
  a.views.flatMap ViewContainer.destroy

/-- The store: field contents, addressed by field id and outer-site index. -/
def Store (M : Type) : Type := Nat → Nat → M

/-- Pointwise update of one site of one field in the store. -/
def Store.update {M : Type} (s : Store M) (f i : Nat) (x : M) : Store M :=
  fun g j => if g = f ∧ j = i then x else s g j

/-- A micro-kernel (`micro_kernel_t`): a kernel action (a function pointer of
type `micro_kernel_action_t`, modelled as a store transformer taking the
argument pack and the half-open range) paired with its argument pack. -/
structure micro_kernel_t (M : Type) where
  action : micro_kernel_arg_t → Store M → Nat → Nat → Store M
  arg : micro_kernel_arg_t

/-- Number of blocks of the executor: `(o_sites + block_size - 1)/block_size`. -/
def numBlocks (o_sites block_size : Nat) : Nat :=
  (o_sites + block_size - 1) / block_size

/-- Lower bound of block `j`: `j0 = std::min(j*block_size, o_sites)`. -/
def blockLo (block_size o_sites j : Nat) : Nat :=
  min (j * block_size) o_sites

/-- Upper bound of block `j`: `j1 = std::min(j0 + block_size, o_sites)`. -/
def blockHi (block_size o_sites j : Nat) : Nat :=
  min (blockLo block_size o_sites j + block_size) o_sites

/-- The list of blocks `[j0, j1)` the executor generates, ascending in `j`. -/
def blocks (o_sites block_size : Nat) : List (Nat × Nat) :=
  (List.range (numBlocks o_sites block_size)).map
    (fun j => (blockLo block_size o_sites j, blockHi block_size o_sites j))

/-- `eval_micro_kernels(kernels, block_size)`: reads
`o_sites = kernels[0].arg.o_sites` (out of bounds for an empty vector,
modelled as `none`), divides by `block_size` (undefined for `0`, modelled
as `none`) and runs the double loop: for each block `j`, each kernel `i`
in order acts on `[j0, j1)`. -/
def eval_micro_kernels {M : Type} (kernels : List (micro_kernel_t M))
    (block_size : Nat) (s : Store M) : Option (Store M) :=
  match kernels with
  | [] => none
  | k0 :: _ =>
    if block_size = 0 then none
    else
      let o_sites := k0.arg.o_sites
      some ((List.range (numBlocks o_sites block_size)).foldl
        (fun s j => kernels.foldl
          (fun s k => k.action k.arg s (blockLo block_size o_sites j)
            (blockHi block_size o_sites j)) s) s)

/-- The sequence of kernel-action invocations the executor performs:
for each block in ascending order, every kernel of the schedule in
schedule order, with that block's range. -/
def invocation_trace {M : Type} (kernels : List (micro_kernel_t M))
    (o_sites block_size : Nat) :
    List (micro_kernel_t M × Nat × Nat) :=
  (List.range (numBlocks o_sites block_size)).flatMap
    (fun j => kernels.map
      (fun k => (k, blockLo block_size o_sites j, blockHi block_size o_sites j)))

/-! ## Block-partition arithmetic -/

lemma numBlocks_le_iff (o B m : Nat) (hB : 1 ≤ B) :
    numBlocks o B ≤ m ↔ o ≤ m * B := by
  unfold numBlocks
  rw [Nat.div_le_iff_le_mul_add_pred hB, Nat.mul_comm m B]
  generalize B * m = t
  omega

lemma mul_lt_of_lt_numBlocks {o B j : Nat} (hB : 1 ≤ B)
    (hj : j < numBlocks o B) : j * B < o := by
  by_contra h
  push_neg at h
  exact absurd ((numBlocks_le_iff o B j hB).mpr h) (Nat.not_le.mpr hj)

lemma div_lt_numBlocks {o B i : Nat} (hB : 1 ≤ B) (hi : i < o) :
    i / B < numBlocks o B := by
  by_contra h
  push_neg at h
  have h1 := (numBlocks_le_iff o B (i / B) hB).mp h
  have h2 := Nat.div_mul_le_self i B
  omega

lemma blockLo_eq {o B j : Nat} (hB : 1 ≤ B) (hj : j < numBlocks o B) :
    blockLo B o j = j * B :=
  min_eq_left (Nat.le_of_lt (mul_lt_of_lt_numBlocks hB hj))

lemma blockHi_eq {o B j : Nat} (hB : 1 ≤ B) (hj : j < numBlocks o B) :
    blockHi B o j = min (j * B + B) o := by
  rw [blockHi, blockLo_eq hB hj]

lemma blockLo_lt_blockHi {o B j : Nat} (hB : 1 ≤ B) (hj : j < numBlocks o B) :
    blockLo B o j < blockHi B o j := by
  rw [blockLo_eq hB hj, blockHi_eq hB hj]
  exact lt_min (Nat.lt_add_of_pos_right (by omega)) (mul_lt_of_lt_numBlocks hB hj)

lemma mem_block_iff {o B i j : Nat} (hB : 1 ≤ B) (hi : i < o)
    (hj : j < numBlocks o B) :
    (blockLo B o j ≤ i ∧ i < blockHi B o j) ↔ j = i / B := by
  rw [blockLo_eq hB hj, blockHi_eq hB hj]
  constructor
  · rintro ⟨h1, h2⟩
    have h3 : i < (j + 1) * B := by
      have h4 : i < j * B + B := lt_of_lt_of_le h2 (min_le_left _ _)
      calc i < j * B + B := h4
        _ = (j + 1) * B := (Nat.succ_mul j B).symm
    exact (Nat.div_eq_of_lt_le h1 h3).symm
  · intro h
    subst h
    refine ⟨Nat.div_mul_le_self i B, lt_min ?_ hi⟩
    have h1 := Nat.div_add_mod i B
    have h2 : i % B < B := Nat.mod_lt _ (by omega)
    calc i = B * (i / B) + i % B := h1.symm
      _ < B * (i / B) + B := Nat.add_lt_add_left h2 _
      _ = i / B * B + B := by rw [Nat.mul_comm]

lemma blocks_cover {o B i : Nat} (hB : 1 ≤ B) :
    i < o ↔ ∃ j, j < numBlocks o B ∧ blockLo B o j ≤ i ∧ i < blockHi B o j := by
  constructor
  · intro hi
    exact ⟨i / B, div_lt_numBlocks hB hi,
      (mem_block_iff hB hi (div_lt_numBlocks hB hi)).mpr rfl⟩
  · rintro ⟨j, hj, _, h2⟩
    exact lt_of_lt_of_le h2 (min_le_right _ _)

lemma blockHi_le_blockLo {o B j1 j2 : Nat} (hB : 1 ≤ B) (h12 : j1 < j2)
    (hj2 : j2 < numBlocks o B) : blockHi B o j1 ≤ blockLo B o j2 := by
  rw [blockLo_eq hB hj2, blockHi_eq hB (lt_trans h12 hj2)]
  refine le_trans (min_le_left _ _) ?_
  calc j1 * B + B = (j1 + 1) * B := (Nat.succ_mul j1 B).symm
    _ ≤ j2 * B := mul_le_mul_right' h12 B

/-- C2: for every extent `O ≥ 0` and block size `B ≥ 1` the generated blocks
are pairwise disjoint (ascending: every earlier block ends no later than a
later block starts), their union is exactly `[0, O)`, and for `O = 16`,
`B = 5` the blocks are `[0,5) [5,10) [10,15) [15,16)`. -/
theorem blocks_partition (O B : Nat) (hB : 1 ≤ B) :
    (∀ j1 j2, j1 < j2 → j2 < numBlocks O B →
      blockHi B O j1 ≤ blockLo B O j2) ∧
    (∀ i, i < O ↔ ∃ j, j < numBlocks O B ∧
      blockLo B O j ≤ i ∧ i < blockHi B O j) ∧
    blocks 16 5 = [(0, 5), (5, 10), (10, 15), (15, 16)] :=
  ⟨fun _ _ h12 hj2 => blockHi_le_blockLo hB h12 hj2,
   fun _ => blocks_cover hB,
   by decide⟩

/-- Witness for C2 at `O = 16`, `B = 5`. -/
theorem blocks_partition_witness :
    1 ≤ 5 ∧
    ((∀ j1 j2, j1 < j2 → j2 < numBlocks 16 5 →
      blockHi 5 16 j1 ≤ blockLo 5 16 j2) ∧
    (∀ i, i < 16 ↔ ∃ j, j < numBlocks 16 5 ∧
      blockLo 5 16 j ≤ i ∧ i < blockHi 5 16 j) ∧
    blocks 16 5 = [(0, 5), (5, 10), (10, 15), (15, 16)]) :=
  ⟨by decide, blocks_partition 16 5 (by decide)⟩

/-! ## View-set validation and release -/

/-- C3: the first `add` records `extent = field.outer_site_count` and
succeeds whatever the uninitialised `o_sites` held; every later `add` fails
(at add time, before any compute) exactly when the new field's outer-site
count differs from the recorded extent. -/
theorem add_validates (x : Nat) (l : Field) (mode : ViewMode) :
    (({ views := [], o_sites := x } : micro_kernel_arg_t).add l mode =
      some { views := [⟨⟨l.id, mode⟩⟩], o_sites := l.oSites }) ∧
    (∀ a : micro_kernel_arg_t, a.views ≠ [] →
      (a.add l mode = none ↔ l.oSites ≠ a.o_sites)) := by
  constructor
  · simp [micro_kernel_arg_t.add]
  · intro a ha
    have hlen : ¬ a.views.length = 0 := by
      simpa [List.length_eq_zero] using ha
    by_cases h : a.o_sites = l.oSites
    · simp [micro_kernel_arg_t.add, hlen, h]
    · simp [micro_kernel_arg_t.add, hlen, h, Ne.symm h]

/-- Witness for C3: a view set already holding a handle with count 7
rejects a field with count 5, and the first add records the extent. -/
theorem add_validates_witness :
    (({ views := [], o_sites := 0 } : micro_kernel_arg_t).add
        ⟨1, 7⟩ ViewMode.AcceleratorRead =
      some { views := [⟨⟨1, ViewMode.AcceleratorRead⟩⟩], o_sites := 7 }) ∧
    (∀ a : micro_kernel_arg_t, a.views ≠ [] →
      (a.add ⟨1, 7⟩ ViewMode.AcceleratorRead = none ↔ 7 ≠ a.o_sites)) :=
  add_validates 0 ⟨1, 7⟩ ViewMode.AcceleratorRead

lemma flatMap_pure {α β : Type} (f : α → β) (l : List α) :
    l.flatMap (fun x => [f x]) = l.map f := by
  induction l with
  | nil => rfl
  | cons x xs ih => simp [List.flatMap_cons, ih]

lemma release_eq_map (a : micro_kernel_arg_t) :
    a.release = (a.views.map ViewContainer.v).map ViewEvent.close := by
  show a.views.flatMap (fun c => [ViewEvent.close c.v]) = _
  rw [flatMap_pure, List.map_map]
  rfl

/-- C6: for a view set holding `k` handles, `release()` performs exactly
`k` close operations, one per handle, each exactly once. -/
theorem release_closes_each_once (a : micro_kernel_arg_t) :
    (a.release).length = a.views.length ∧
    ∀ h : ViewHandle, (a.release).count (ViewEvent.close h) =
      (a.views.map ViewContainer.v).count h := by
  refine ⟨by rw [release_eq_map]; simp, fun h => ?_⟩
  rw [release_eq_map]
  exact List.count_map_of_injective _ ViewEvent.close
    (fun h1 h2 e => by injection e) h

/-! ## The example kernel action -/

/-- `mk_su3_mul`: the example kernel action.  Views `[0]`, `[1]`, `[2]` of
the argument pack are destination, left operand and right operand; the loop
over `idx < i1 - i0` performs `a_p[idx] = b_p[idx] * c_p[idx]`, i.e.
`dest[i0+idx] = left[i0+idx] * right[i0+idx]`.  (An argument pack with
fewer than three views is out-of-bounds in the C++; `getD` is total here
but no theorem below relies on that case.) -/
def mk_su3_mul {M : Type} [Mul M] (arg : micro_kernel_arg_t) (s : Store M)
    (i0 i1 : Nat) : Store M :=
  let a := (arg.views.getD 0 default).v.fieldId
  let b := (arg.views.getD 1 default).v.fieldId
  let c := (arg.views.getD 2 default).v.fieldId
  (List.range (i1 - i0)).foldl
    (fun st idx => st.update a (i0 + idx)
      (st b (i0 + idx) * st c (i0 + idx))) s

lemma su3_loop_apply {M : Type} [Mul M] (a b c : Nat) (s : Store M)
    (i0 n : Nat) (g i : Nat) :
    ((List.range n).foldl
      (fun st idx => Store.update st a (i0 + idx)
        (st b (i0 + idx) * st c (i0 + idx))) s) g i =
    if g = a ∧ i0 ≤ i ∧ i < i0 + n then s b i * s c i else s g i := by
  induction n generalizing g i with
  | zero =>
    simp only [List.range_zero, List.foldl_nil]
    split_ifs with h
    · exact absurd h (by omega)
    · rfl
  | succ n ih =>
    rw [List.range_succ, List.foldl_append]
    simp only [List.foldl_cons, List.foldl_nil]
    simp only [Store.update]
    by_cases hgi : g = a ∧ i = i0 + n
    · obtain ⟨rfl, rfl⟩ := hgi
      rw [if_pos ⟨rfl, rfl⟩]
      simp only [ih]
      simp
    · rw [if_neg hgi, ih]
      split_ifs with h1 h2 <;> first | rfl | (exfalso; omega)

lemma mk_su3_mul_apply {M : Type} [Mul M] (dv lv rv : ViewContainer)
    (os : Nat) (s : Store M) (i0 i1 g i : Nat) :
    mk_su3_mul { views := [dv, lv, rv], o_sites := os } s i0 i1 g i =
    if g = dv.v.fieldId ∧ i0 ≤ i ∧ i < i1 then
      s lv.v.fieldId i * s rv.v.fieldId i
    else s g i := by
  show ((List.range (i1 - i0)).foldl
      (fun st idx => Store.update st dv.v.fieldId (i0 + idx)
        (st lv.v.fieldId (i0 + idx) * st rv.v.fieldId (i0 + idx))) s) g i = _
  rw [su3_loop_apply]
  split_ifs with h1 h2 h2 <;> first | rfl | (exfalso; omega)

/-- C7: `mk_su3_mul` over a view set `(dest, left, right)` and range
`[i0, i1)` writes `dest[i] = left[i] * right[i]` for every `i` in the range,
leaves every other (field, index) pair untouched, and its in-range output
depends only on the in-range input contents (it reads nothing outside
`[i0, i1)`). -/
theorem mk_su3_mul_correct {M : Type} [Mul M] (dv lv rv : ViewContainer)
    (os : Nat) (s s' : Store M) (i0 i1 : Nat)
    (hagree : ∀ g i, i0 ≤ i → i < i1 → s g i = s' g i) :
    (∀ i, i0 ≤ i → i < i1 →
      mk_su3_mul { views := [dv, lv, rv], o_sites := os } s i0 i1
        dv.v.fieldId i = s lv.v.fieldId i * s rv.v.fieldId i) ∧
    (∀ g i, ¬(g = dv.v.fieldId ∧ i0 ≤ i ∧ i < i1) →
      mk_su3_mul { views := [dv, lv, rv], o_sites := os } s i0 i1 g i =
        s g i) ∧
    (∀ g i, i0 ≤ i → i < i1 →
      mk_su3_mul { views := [dv, lv, rv], o_sites := os } s i0 i1 g i =
      mk_su3_mul { views := [dv, lv, rv], o_sites := os } s' i0 i1 g i) := by
  refine ⟨fun i hl hr => ?_, fun g i hno => ?_, fun g i hl hr => ?_⟩
  · rw [mk_su3_mul_apply, if_pos ⟨rfl, hl, hr⟩]
  · rw [mk_su3_mul_apply, if_neg hno]
  · rw [mk_su3_mul_apply, mk_su3_mul_apply]
    split_ifs with h
    · rw [hagree lv.v.fieldId i hl hr, hagree rv.v.fieldId i hl hr]
    · exact hagree g i hl hr

/-- Witness for C7 at a concrete instance: integer store, destination
field 2, operands 0 and 1, range `[1, 3)`. -/
theorem mk_su3_mul_correct_witness :
    (∀ i, 1 ≤ i → i < 3 →
      mk_su3_mul (M := Int)
        { views := [⟨⟨2, ViewMode.AcceleratorWriteDiscard⟩⟩,
                    ⟨⟨0, ViewMode.AcceleratorRead⟩⟩,
                    ⟨⟨1, ViewMode.AcceleratorRead⟩⟩], o_sites := 4 }
        (fun g i => (g : Int) + 2 * i) 1 3 2 i =
        ((0 : Int) + 2 * i) * ((1 : Int) + 2 * i)) ∧
    (∀ g i, ¬(g = 2 ∧ 1 ≤ i ∧ i < 3) →
      mk_su3_mul (M := Int)
        { views := [⟨⟨2, ViewMode.AcceleratorWriteDiscard⟩⟩,
                    ⟨⟨0, ViewMode.AcceleratorRead⟩⟩,
                    ⟨⟨1, ViewMode.AcceleratorRead⟩⟩], o_sites := 4 }
        (fun g i => (g : Int) + 2 * i) 1 3 g i = (g : Int) + 2 * i) ∧
    (∀ g i, 1 ≤ i → i < 3 →
      mk_su3_mul (M := Int)
        { views := [⟨⟨2, ViewMode.AcceleratorWriteDiscard⟩⟩,
                    ⟨⟨0, ViewMode.AcceleratorRead⟩⟩,
                    ⟨⟨1, ViewMode.AcceleratorRead⟩⟩], o_sites := 4 }
        (fun g i => (g : Int) + 2 * i) 1 3 g i =
      mk_su3_mul (M := Int)
        { views := [⟨⟨2, ViewMode.AcceleratorWriteDiscard⟩⟩,
                    ⟨⟨0, ViewMode.AcceleratorRead⟩⟩,
                    ⟨⟨1, ViewMode.AcceleratorRead⟩⟩], o_sites := 4 }
        (fun g i => (g : Int) + 2 * i) 1 3 g i) :=
  mk_su3_mul_correct
    ⟨⟨2, ViewMode.AcceleratorWriteDiscard⟩⟩
    ⟨⟨0, ViewMode.AcceleratorRead⟩⟩
    ⟨⟨1, ViewMode.AcceleratorRead⟩⟩ 4
    (fun g i => (g : Int) + 2 * i) (fun g i => (g : Int) + 2 * i) 1 3
    (fun _ _ _ _ => rfl)

/-! ## Elementwise kernel semantics and the tiling equivalence -/

/-- A column of the store: every field's value at one outer-site index. -/
def Store.col {M : Type} (s : Store M) (i : Nat) : Nat → M := fun g => s g i

/-- The canonical elementwise action with per-site local function `f`:
for each `i ∈ [i0, i1)` it replaces the site's column by `f` of it, and
touches nothing else. -/
def applyRange {M : Type} (f : (Nat → M) → (Nat → M)) (s : Store M)
    (i0 i1 : Nat) : Store M :=
  fun g i => if i0 ≤ i ∧ i < i1 then f (s.col i) g else s g i

/-- A micro-kernel obeys the Kernel Action contract of the spec with local
function `f`: on any range it reads each in-range site's operand values
and writes that same site's outputs, per `f`, and nothing else. -/
def IsElementwise {M : Type} (k : micro_kernel_t M)
    (f : (Nat → M) → (Nat → M)) : Prop :=
  ∀ s i0 i1, k.action k.arg s i0 i1 = applyRange f s i0 i1

/-- One pass of the whole schedule over `[i0, i1)`, in schedule order. -/
def runBlock {M : Type} (kernels : List (micro_kernel_t M)) (s : Store M)
    (i0 i1 : Nat) : Store M :=
  kernels.foldl (fun s k => k.action k.arg s i0 i1) s

/-- The untiled baseline: every kernel action once over the full range
`[0, extent)`, in schedule order, with no tiling. -/
def run_untiled {M : Type} (kernels : List (micro_kernel_t M))
    (extent : Nat) (s : Store M) : Store M :=
  runBlock kernels s 0 extent

/-- Composite of the schedule's local functions, in schedule order. -/
def chain {M : Type} (fs : List ((Nat → M) → (Nat → M)))
    (c : Nat → M) : Nat → M :=
  fs.foldl (fun c f => f c) c

lemma applyRange_col {M : Type} (f : (Nat → M) → (Nat → M)) (s : Store M)
    (i0 i1 i : Nat) :
    (applyRange f s i0 i1).col i =
    if i0 ≤ i ∧ i < i1 then f (s.col i) else s.col i := by
  funext g
  show applyRange f s i0 i1 g i = _
  simp only [applyRange]
  split_ifs with h <;> rfl

lemma runBlock_col {M : Type} {kernels : List (micro_kernel_t M)}
    {fs : List ((Nat → M) → (Nat → M))}
    (hE : List.Forall₂ IsElementwise kernels fs) (s : Store M)
    (i0 i1 i : Nat) :
    (runBlock kernels s i0 i1).col i =
    if i0 ≤ i ∧ i < i1 then chain fs (s.col i) else s.col i := by
  induction hE generalizing s with
  | nil =>
    show s.col i = _
    split_ifs <;> rfl
  | @cons k f ks fs' hkf _ ih =>
    show (runBlock ks (k.action k.arg s i0 i1) i0 i1).col i = _
    rw [ih, hkf, applyRange_col]
    split_ifs with h
    · rfl
    · rfl

lemma eval_core_col {M : Type} {kernels : List (micro_kernel_t M)}
    {fs : List ((Nat → M) → (Nat → M))}
    (hE : List.Forall₂ IsElementwise kernels fs)
    (o B : Nat) (hB : 1 ≤ B) (s : Store M) (i : Nat) (hi : i < o)
    (N : Nat) (hN : N ≤ numBlocks o B) :
    (((List.range N).foldl
      (fun s j => runBlock kernels s (blockLo B o j) (blockHi B o j))
      s)).col i =
    if i / B < N then chain fs (s.col i) else s.col i := by
  induction N generalizing s with
  | zero => simp
  | succ N ih =>
    rw [List.range_succ, List.foldl_append]
    simp only [List.foldl_cons, List.foldl_nil]
    rw [runBlock_col hE, ih s (Nat.le_of_succ_le hN)]
    have hNlt : N < numBlocks o B := hN
    have hmem := mem_block_iff hB hi hNlt
    set q := i / B with hq
    by_cases hb : blockLo B o N ≤ i ∧ i < blockHi B o N
    · have hNe : N = q := hmem.mp hb
      rw [if_pos hb, if_neg (show ¬ q < N by omega),
        if_pos (show q < N + 1 by omega)]
    · have hNe : ¬ N = q := fun h => hb (hmem.mpr h)
      rw [if_neg hb]
      by_cases h2 : q < N
      · rw [if_pos h2, if_pos (show q < N + 1 by omega)]
      · rw [if_neg h2, if_neg (show ¬ q < N + 1 by omega)]

lemma eval_core_col_ge {M : Type} {kernels : List (micro_kernel_t M)}
    {fs : List ((Nat → M) → (Nat → M))}
    (hE : List.Forall₂ IsElementwise kernels fs)
    (o B : Nat) (s : Store M) (i : Nat) (hi : o ≤ i) (N : Nat) :
    (((List.range N).foldl
      (fun s j => runBlock kernels s (blockLo B o j) (blockHi B o j))
      s)).col i = s.col i := by
  induction N generalizing s with
  | zero => rfl
  | succ N ih =>
    rw [List.range_succ, List.foldl_append]
    simp only [List.foldl_cons, List.foldl_nil]
    rw [runBlock_col hE, ih]
    rw [if_neg (fun hc =>
      absurd (lt_of_lt_of_le hc.2 (min_le_right _ _)) (Nat.not_lt.mpr hi))]

lemma eval_micro_kernels_cons {M : Type} (k0 : micro_kernel_t M)
    (ks : List (micro_kernel_t M)) (B : Nat) (hB0 : B ≠ 0) (s : Store M) :
    eval_micro_kernels (k0 :: ks) B s =
    some ((List.range (numBlocks k0.arg.o_sites B)).foldl
      (fun s j => runBlock (k0 :: ks) s (blockLo B k0.arg.o_sites j)
        (blockHi B k0.arg.o_sites j)) s) := by
  simp only [eval_micro_kernels, if_neg hB0]
  rfl

lemma eval_eq_untiled {M : Type} {kernels : List (micro_kernel_t M)}
    {fs : List ((Nat → M) → (Nat → M))}
    (hE : List.Forall₂ IsElementwise kernels fs)
    (k0 : micro_kernel_t M) (ks : List (micro_kernel_t M))
    (hk : kernels = k0 :: ks) (B : Nat) (hB : 1 ≤ B) (s : Store M) :
    eval_micro_kernels kernels B s =
      some (run_untiled kernels k0.arg.o_sites s) := by
  subst hk
  rw [eval_micro_kernels_cons k0 ks B (by omega) s]
  congr 1
  funext g i
  by_cases hi : i < k0.arg.o_sites
  · have h1 := congrFun (eval_core_col hE k0.arg.o_sites B hB s i hi
      (numBlocks k0.arg.o_sites B) (le_refl _)) g
    have h2 := congrFun (runBlock_col hE s 0 k0.arg.o_sites i) g
    rw [if_pos (div_lt_numBlocks hB hi)] at h1
    rw [if_pos ⟨Nat.zero_le i, hi⟩] at h2
    exact h1.trans h2.symm
  · have hi' : k0.arg.o_sites ≤ i := Nat.le_of_not_lt hi
    have h1 := congrFun (eval_core_col_ge hE k0.arg.o_sites B s i hi'
      (numBlocks k0.arg.o_sites B)) g
    have h2 := congrFun (runBlock_col hE s 0 k0.arg.o_sites i) g
    rw [if_neg (fun hc => hi hc.2)] at h2
    exact h1.trans h2.symm

lemma mk_su3_mul_elementwise {M : Type} [Mul M] (dv lv rv : ViewContainer)
    (os : Nat) :
    IsElementwise (M := M)
      ⟨mk_su3_mul, { views := [dv, lv, rv], o_sites := os }⟩
      (fun col g => if g = dv.v.fieldId
        then col lv.v.fieldId * col rv.v.fieldId else col g) := by
  intro s i0 i1
  funext g i
  show mk_su3_mul { views := [dv, lv, rv], o_sites := os } s i0 i1 g i = _
  rw [mk_su3_mul_apply]
  simp only [applyRange]
  split_ifs with h1 h2 h3 <;> first | rfl | (exfalso; omega)

/-! ## The benchmark schedule from `micro_kernels()` -/

/-- Field ids of the benchmark: `a = 0`, `b = 1`, `c = 2`, `d = 3`. -/
def bench_os : Nat := 4

/-- `views_c_a_b`: destination `c` write-discard, operands `a`, `b` read. -/
def views_c_a_b : micro_kernel_arg_t :=
  { views := [⟨⟨2, ViewMode.AcceleratorWriteDiscard⟩⟩,
              ⟨⟨0, ViewMode.AcceleratorRead⟩⟩,
              ⟨⟨1, ViewMode.AcceleratorRead⟩⟩], o_sites := bench_os }

/-- `views_d_a_c`: destination `d` write-discard, operands `a`, `c` read. -/
def views_d_a_c : micro_kernel_arg_t :=
  { views := [⟨⟨3, ViewMode.AcceleratorWriteDiscard⟩⟩,
              ⟨⟨0, ViewMode.AcceleratorRead⟩⟩,
              ⟨⟨2, ViewMode.AcceleratorRead⟩⟩], o_sites := bench_os }

/-- The fused expression of the benchmark:
`c = a*b; d = a*c; c = a*b; d = a*c`. -/
def bench_expression {M : Type} [Mul M] : List (micro_kernel_t M) :=
  [⟨mk_su3_mul, views_c_a_b⟩, ⟨mk_su3_mul, views_d_a_c⟩,
   ⟨mk_su3_mul, views_c_a_b⟩, ⟨mk_su3_mul, views_d_a_c⟩]

/-- A sample integer store for concrete executions. -/
def bench_store : Store Int := fun g i => (g : Int) + i

/-- The local functions of the benchmark schedule. -/
def bench_fs {M : Type} [Mul M] : List ((Nat → M) → (Nat → M)) :=
  [fun col g => if g = 2 then col 0 * col 1 else col g,
   fun col g => if g = 3 then col 0 * col 2 else col g,
   fun col g => if g = 2 then col 0 * col 1 else col g,
   fun col g => if g = 3 then col 0 * col 2 else col g]

lemma bench_elementwise {M : Type} [Mul M] :
    List.Forall₂ IsElementwise (bench_expression (M := M))
      (bench_fs (M := M)) := by
  refine List.Forall₂.cons ?_ (List.Forall₂.cons ?_
    (List.Forall₂.cons ?_ (List.Forall₂.cons ?_ List.Forall₂.nil)))
  · exact mk_su3_mul_elementwise _ _ _ _
  · exact mk_su3_mul_elementwise _ _ _ _
  · exact mk_su3_mul_elementwise _ _ _ _
  · exact mk_su3_mul_elementwise _ _ _ _

/-- C1: for every schedule of elementwise (deterministic) kernel actions
and every `block_size ≥ 1`, the block-tiled executor produces exactly the
final field contents of executing every kernel action once over the full
range `[0, extent)` in schedule order with no tiling. -/
theorem tiled_refines_untiled {M : Type} (kernels : List (micro_kernel_t M))
    (fs : List ((Nat → M) → (Nat → M)))
    (hE : List.Forall₂ IsElementwise kernels fs)
    (k0 : micro_kernel_t M) (ks : List (micro_kernel_t M))
    (hk : kernels = k0 :: ks) (B : Nat) (hB : 1 ≤ B) (s : Store M) :
    eval_micro_kernels kernels B s =
      some (run_untiled kernels k0.arg.o_sites s) :=
  eval_eq_untiled hE k0 ks hk B hB s

/-- Witness for C1: the benchmark schedule over an integer store, with
`block_size = 3` not dividing the extent `4`. -/
theorem tiled_refines_untiled_witness :
    eval_micro_kernels (M := Int) bench_expression 3 bench_store =
      some (run_untiled bench_expression bench_os
        bench_store) :=
  tiled_refines_untiled bench_expression bench_fs bench_elementwise
    ⟨mk_su3_mul, views_c_a_b⟩
    [⟨mk_su3_mul, views_d_a_c⟩, ⟨mk_su3_mul, views_c_a_b⟩,
     ⟨mk_su3_mul, views_d_a_c⟩]
    rfl 3 (by omega) bench_store

/-- C5: for a schedule of elementwise (deterministic) kernel actions, the
executor's result is the same for any two block sizes `B1, B2 ≥ 1` —
in particular for `B = 1`, `B = extent`, and any non-divisor `B`. -/
theorem tiling_granularity_invariant {M : Type}
    (kernels : List (micro_kernel_t M))
    (fs : List ((Nat → M) → (Nat → M)))
    (hE : List.Forall₂ IsElementwise kernels fs)
    (k0 : micro_kernel_t M) (ks : List (micro_kernel_t M))
    (hk : kernels = k0 :: ks) (B1 B2 : Nat) (h1 : 1 ≤ B1) (h2 : 1 ≤ B2)
    (s : Store M) :
    eval_micro_kernels kernels B1 s = eval_micro_kernels kernels B2 s := by
  rw [eval_eq_untiled hE k0 ks hk B1 h1 s,
    eval_eq_untiled hE k0 ks hk B2 h2 s]

/-- Witness for C5: benchmark schedule, `B1 = 1` versus the single-block
`B2 = 4 = extent` (and, by a second application, a non-divisor `B2 = 3`). -/
theorem tiling_granularity_invariant_witness :
    eval_micro_kernels (M := Int) bench_expression 1
        bench_store =
      eval_micro_kernels (M := Int) bench_expression 4
        bench_store :=
  tiling_granularity_invariant bench_expression bench_fs bench_elementwise
    ⟨mk_su3_mul, views_c_a_b⟩
    [⟨mk_su3_mul, views_d_a_c⟩, ⟨mk_su3_mul, views_c_a_b⟩,
     ⟨mk_su3_mul, views_d_a_c⟩]
    rfl 1 4 (by omega) (by omega) bench_store

/-! ## Execution order (C4) -/

lemma foldl_flatMap {α β γ : Type} (l : List α) (f : α → List β)
    (g : γ → β → γ) (s : γ) :
    (l.flatMap f).foldl g s =
      l.foldl (fun s a => (f a).foldl g s) s := by
  induction l generalizing s with
  | nil => rfl
  | cons x xs ih =>
    rw [List.flatMap_cons, List.foldl_append, ih]
    rfl

/-- C4: on a non-empty schedule the executor is exactly the sequential
execution of its invocation trace: for each block in ascending order, every
micro-kernel in schedule order, before advancing to the next block; the
iteration extent of the whole pass is read from the first micro-kernel's
view set. -/
theorem executor_invocation_order {M : Type} (k0 : micro_kernel_t M)
    (ks : List (micro_kernel_t M)) (B : Nat) (hB0 : B ≠ 0) (s : Store M) :
    eval_micro_kernels (k0 :: ks) B s =
      some ((invocation_trace (k0 :: ks) k0.arg.o_sites B).foldl
        (fun s t => t.1.action t.1.arg s t.2.1 t.2.2) s) := by
  rw [eval_micro_kernels_cons k0 ks B hB0 s]
  congr 1
  rw [invocation_trace, foldl_flatMap]
  simp only [List.foldl_map]
  rfl

/-- Witness for C4: the benchmark schedule with `block_size = 2`. -/
theorem executor_invocation_order_witness :
    eval_micro_kernels (M := Int) bench_expression 2
        bench_store =
      some ((invocation_trace (M := Int) bench_expression bench_os 2).foldl
        (fun s t => t.1.action t.1.arg s t.2.1 t.2.2)
        bench_store) :=
  executor_invocation_order ⟨mk_su3_mul, views_c_a_b⟩
    [⟨mk_su3_mul, views_d_a_c⟩, ⟨mk_su3_mul, views_c_a_b⟩,
     ⟨mk_su3_mul, views_d_a_c⟩]
    2 (by omega) bench_store

/-! ## Safety of the executor entry (C8, C9, C10) -/

/-- C8: `block_size = 0` is invalid — the block-count division is a
division by zero and the executor has no defined result; for every
`block_size ≥ 1` the division is well-defined and the double loop runs
exactly `ceil(extent / block_size)` blocks (`numBlocks` is exactly the
ceiling: the least `m` with `extent ≤ m * block_size`). -/
theorem block_size_zero_invalid (M : Type) :
    (∀ (kernels : List (micro_kernel_t M)) (s : Store M),
      eval_micro_kernels kernels 0 s = none) ∧
    (∀ o B, 1 ≤ B → (blocks o B).length = numBlocks o B ∧
      ∀ m, numBlocks o B ≤ m ↔ o ≤ m * B) := by
  constructor
  · intro kernels s
    cases kernels with
    | nil => rfl
    | cons k0 ks => simp [eval_micro_kernels]
  · intro o B hB
    exact ⟨by simp [blocks], fun m => numBlocks_le_iff o B m hB⟩

/-- Witness for C8: the benchmark schedule with `block_size = 0`, and the
ceiling characterisation at `extent = 17`, `B = 5`. -/
theorem block_size_zero_invalid_witness :
    eval_micro_kernels (M := Int) bench_expression 0 bench_store = none ∧
    ((blocks 17 5).length = numBlocks 17 5 ∧
      ∀ m, numBlocks 17 5 ≤ m ↔ 17 ≤ m * 5) :=
  ⟨(block_size_zero_invalid Int).1 bench_expression bench_store,
   (block_size_zero_invalid Int).2 17 5 (by omega)⟩

/-- C9: the executor reads `kernels[0].arg.o_sites` before any loop test,
so the empty schedule has no defined behaviour (modelled `none`), while
every non-empty schedule with a valid block size has a defined result:
non-emptiness is a safety precondition of `eval_micro_kernels`. -/
theorem empty_schedule_undefined (M : Type) :
    (∀ (B : Nat) (s : Store M),
      eval_micro_kernels ([] : List (micro_kernel_t M)) B s = none) ∧
    (∀ (k0 : micro_kernel_t M) (ks : List (micro_kernel_t M)) (B : Nat)
      (s : Store M), B ≠ 0 →
      (eval_micro_kernels (k0 :: ks) B s).isSome = true) := by
  refine ⟨fun B s => rfl, fun k0 ks B s hB0 => ?_⟩
  rw [eval_micro_kernels_cons k0 ks B hB0 s]
  rfl

/-- Witness for C9: empty schedule versus the benchmark schedule at
`block_size = 3`. -/
theorem empty_schedule_undefined_witness :
    eval_micro_kernels ([] : List (micro_kernel_t Int)) 3 bench_store =
      none ∧
    (eval_micro_kernels (M := Int) bench_expression 3
      bench_store).isSome = true :=
  ⟨(empty_schedule_undefined Int).1 3 bench_store,
   (empty_schedule_undefined Int).2 ⟨mk_su3_mul, views_c_a_b⟩
     [⟨mk_su3_mul, views_d_a_c⟩, ⟨mk_su3_mul, views_c_a_b⟩,
      ⟨mk_su3_mul, views_d_a_c⟩] 3 bench_store (by omega)⟩

/-- C10: for `block_size ≥ 1` every generated block is non-empty, so every
kernel-action invocation in the executor's trace receives a non-empty
range; and for extent `0` the trace is empty — zero invocations. -/
theorem every_block_nonempty (M : Type) :
    (∀ o B, 1 ≤ B → ∀ j, j < numBlocks o B →
      blockLo B o j < blockHi B o j) ∧
    (∀ (kernels : List (micro_kernel_t M)) (o B : Nat), 1 ≤ B →
      ∀ t ∈ invocation_trace kernels o B, t.2.1 < t.2.2) ∧
    (∀ (kernels : List (micro_kernel_t M)) (B : Nat),
      invocation_trace kernels 0 B = []) := by
  refine ⟨fun o B hB j hj => blockLo_lt_blockHi hB hj,
    fun kernels o B hB t ht => ?_, fun kernels B => ?_⟩
  · rw [invocation_trace] at ht
    rw [List.mem_flatMap] at ht
    obtain ⟨j, hj, hmap⟩ := ht
    rw [List.mem_map] at hmap
    obtain ⟨k, _, rfl⟩ := hmap
    exact blockLo_lt_blockHi hB (List.mem_range.mp hj)
  · have h0 : numBlocks 0 B = 0 := by
      cases B with
      | zero => rfl
      | succ b => exact Nat.div_eq_of_lt (by omega)
    rw [invocation_trace, h0]
    rfl

/-- Witness for C10: benchmark schedule, extent 4 and extent 0, `B = 3`. -/
theorem every_block_nonempty_witness :
    (1 ≤ 3 ∧ ∀ j, j < numBlocks 4 3 → blockLo 3 4 j < blockHi 3 4 j) ∧
    (∀ t ∈ invocation_trace (M := Int) bench_expression 4 3,
      t.2.1 < t.2.2) ∧
    invocation_trace (M := Int) bench_expression 0 3 = [] :=
  ⟨⟨by omega, (every_block_nonempty Int).1 4 3 (by omega)⟩,
   (every_block_nonempty Int).2.1 bench_expression 4 3 (by omega),
   (every_block_nonempty Int).2.2 bench_expression 3⟩

end Cgpt
